import Mathlib

/-!
Verification model of the budget/expense application (`src/app.py`).

The application stores three tables (gastos, presupuesto, ingresos) in
SQLite, and derives weekly aggregates, a budget comparison, a
category-by-type pivot and a naive weekly forecast with pandas.

Modelling conventions:
* a pandas `DataFrame` of transactions is a `List Row`;
* `REAL` amounts are rationals (`ℚ`);
* a calendar date is an `Int` counting days since 1970-01-01;
* a cell of the `fecha` column is `Fecha`: either a raw text cell
  (`Fecha.str`) or a datetime cell (`Fecha.dt`), where `Fecha.dt none`
  is pandas `NaT`; `pd.to_datetime(_, errors="coerce")` is `coerceFecha`;
* `pd.NaN` results of `mean()` are `Option ℚ` with `none` for `NaN`;
* the SQLite file is a `Store`, a map from table name to table contents;
  `df.to_sql(..., if_exists="replace")` and `pd.read_sql` become pure
  state-passing functions;
* `df.groupby(pd.Grouper(key="fecha", freq="W"))` bins rows into calendar
  weeks ending on Sunday (label = the Sunday, interval closed on the
  right) and, like `resample`, materialises every weekly bin between the
  first and the last observed one, summing each (empty bins sum to 0).
  1970-01-01 was a Thursday, so Sundays are the days `d` with
  `d % 7 = 3`.
-/

/-- Leap year test of the Gregorian calendar. -/
def isLeap (y : Nat) : Bool :=
  (y % 4 == 0 && y % 100 != 0) || (y % 400 == 0)

/-- Number of days of month `m` (1-12) in year `y`. -/
def daysInMonth (y m : Nat) : Nat :=
  if m = 2 then (if isLeap y then 29 else 28)
  else if m = 4 ∨ m = 6 ∨ m = 9 ∨ m = 11 then 30
  else 31

/-- Days in the months of year `y` strictly before month `m`. -/
def daysBeforeMonth (y m : Nat) : Nat :=
  ((List.range (m - 1)).map (fun k => daysInMonth y (k + 1))).sum

/-- Proleptic-Gregorian ordinal day number of `y-m-d` (day 1 = 0001-01-01). -/
def toOrdinal (y m d : Nat) : Nat :=
  365 * (y - 1) + (y - 1) / 4 - (y - 1) / 100 + (y - 1) / 400
    + daysBeforeMonth y m + d

/-- Ordinal day number of 1970-01-01, the epoch of our day count. -/
def epochOrdinal : Nat := 719163

/-- Model of `pd.to_datetime(s, errors="coerce")` on a text cell: an ISO
`YYYY-MM-DD` string inside the pandas `Timestamp` range parses to its day
number relative to 1970-01-01, anything else coerces to `NaT` (`none`). -/
def parseFecha (s : String) : Option Int :=
  match s.splitOn "-" with
  | [ys, ms, ds] =>
    match ys.toNat?, ms.toNat?, ds.toNat? with
    | some y, some m, some d =>
      if 1678 ≤ y ∧ y ≤ 2261 ∧ 1 ≤ m ∧ m ≤ 12 ∧ 1 ≤ d ∧ d ≤ daysInMonth y m
      then some ((toOrdinal y m d : Int) - (epochOrdinal : Int))
      else none
    | _, _, _ => none
  | _ => none

/-- One cell of the `fecha` column: a raw text cell, or a datetime cell
(`dt none` is pandas `NaT`). -/
inductive Fecha where
  | str (s : String)
  | dt (d : Option Int)
deriving DecidableEq

/-- Datetime value a `fecha` cell coerces to: text is parsed, datetime
cells are kept as they are. -/
def fechaVal : Fecha → Option Int
  | .str s => parseFecha s
  | .dt d => d

/-- Effect of `pd.to_datetime(_, errors="coerce")` on one `fecha` cell. -/
def coerceFecha (f : Fecha) : Fecha := .dt (fechaVal f)

/-- One row of the `gastos` table: columns fecha, categoria, monto, tipo. -/
structure Row where
  fecha : Fecha
  categoria : String
  monto : ℚ
  tipo : String
deriving DecidableEq

/-- Row with its `fecha` cell coerced to datetime, the other columns kept. -/
def coerceRow (r : Row) : Row := { r with fecha := coerceFecha r.fecha }

/-- Sunday ending the calendar week of day `d` (label of the `freq="W"`
bin containing `d`): the least Sunday `≥ d`. Sundays are `≡ 3 [mod 7]`. -/
def weekEnd (d : Int) : Int := d + (3 - d) % 7

/-- Week bin a row falls into, `none` when its date does not parse. -/
def weekKey (r : Row) : Option Int := (fechaVal r.fecha).map weekEnd

/-- Week bins of the rows whose dates parse, in row order. -/
def parsedWeeks (tx : List Row) : List Int := tx.filterMap weekKey

/-- Minimum of `x :: l`, as a left fold. -/
def minL (x : Int) (l : List Int) : Int := l.foldl min x

/-- Maximum of `x :: l`, as a left fold. -/
def maxL (x : Int) (l : List Int) : Int := l.foldl max x

/-- Total amount of the rows falling into week bin `w`. -/
def bucketSum (tx : List Row) (w : Int) : ℚ :=
  ((tx.filter (fun r => decide (weekKey r = some w))).map (fun r => r.monto)).sum

/-- Weekly bin labels `lo, lo + 7, …`, `k` of them. -/
def binList (lo : Int) (k : Nat) : List Int :=
  (List.range k).map (fun (i : Nat) => lo + 7 * (i : Int))

/-- Number of weekly bins spanning `lo … hi` (for `lo ≤ hi`, both Sundays). -/
def binCount (lo hi : Int) : Nat := (hi - lo).toNat / 7 + 1

/-- Model of
`df.groupby(pd.Grouper(key="fecha", freq="W"))["monto"].sum().reset_index()`
(lines 124 and 212 of `src/app.py`): every weekly bin from the first to
the last observed week, each with the summed amount of its rows (0 for
bins no row falls into); empty when no date parses. -/
def weeklyTotals (tx : List Row) : List (Int × ℚ) :=
  match parsedWeeks tx with
  | [] => []
  | w :: ws =>
    (binList (minL w ws) (binCount (minL w ws) (maxL w ws))).map
      (fun b => (b, bucketSum tx b))

/-- Model of `Series.max()`: `none` is the `NaT` returned on an empty
column. -/
def lastBoundary (l : List Int) : Option Int :=
  match l with
  | [] => none
  | x :: xs => some (maxL x xs)

/-- Model of `Series.mean()`: `none` is the `NaN` returned on an empty
column. -/
def meanOpt (xs : List ℚ) : Option ℚ :=
  if xs = [] then none else some (xs.sum / (xs.length : ℚ))

/-- Model of `forecast_semanal_naive(df, n_weeks)` (src/app.py lines
112-136). The Python function mutates its argument in place
(`df["fecha"] = pd.to_datetime(df["fecha"], errors="coerce")`), so the
model returns the post-call table together with the projection
DataFrame `[(Semana, Gasto Proyectado)]`. `today` models
`datetime.today()`. `range(n_weeks)` of Python is empty for
`n_weeks ≤ 0`, hence `Int.toNat`. -/
def forecast_semanal_naive (today : Int) (df : List Row) (n_weeks : Int) :
    List Row × List (Int × Option ℚ) :=
  if df.isEmpty then (df, [])
  else
    let df2 := df.map coerceRow
    let df_sem := weeklyTotals df2
    let gasto_promedio := meanOpt (df_sem.map Prod.snd)
    let ultima_semana := lastBoundary (df_sem.map Prod.fst)
    let anchor := ultima_semana.getD today
    (df2, (List.range n_weeks.toNat).map
      (fun (i : Nat) => (anchor + 7 * ((i : Int) + 1), gasto_promedio)))

/-- One row of the `presupuesto` table. -/
structure BudgetRow where
  categoria : String
  presupuesto_asignado : ℚ
deriving DecidableEq

/-- One row of the comparison table `df_comp` of src/app.py lines 222-225. -/
structure CompRow where
  categoria : String
  presupuesto_asignado : ℚ
  gasto_actual : ℚ
  diferencia : ℚ
deriving DecidableEq

/-- Total amount spent in category `c`:
`df.groupby("categoria")["monto"].sum()` looked up at `c`, with the
`fillna(0)` of the left join giving 0 when `c` has no transactions. -/
def actualPorCategoria (tx : List Row) (c : String) : ℚ :=
  ((tx.filter (fun r => decide (r.categoria = c))).map (fun r => r.monto)).sum

/-- Model of the budget comparison of `main` (src/app.py lines 221-226):
guarded by `if not df_gastos_final.empty:`, so with an empty transaction
table no comparison table is computed at all (`none`). Otherwise
`pd.merge(df_presupuesto, df_cat, on="categoria", how="left")` keeps one
output row per budget row in order, attaching the summed actual spend of
the row's category (`fillna` 0 when unmatched) and the difference. -/
def category_actual_vs_budget (tx : List Row) (presupuesto : List BudgetRow) :
    Option (List CompRow) :=
  if tx.isEmpty then none
  else some (presupuesto.map (fun b =>
    { categoria := b.categoria
      presupuesto_asignado := b.presupuesto_asignado
      gasto_actual := actualPorCategoria tx b.categoria
      diferencia := b.presupuesto_asignado - actualPorCategoria tx b.categoria }))

/-- Distinct categories observed in the transaction table (the pivot
index; pandas sorts it, here order is the order of last occurrence —
only the underlying set matters for the claims). -/
def categoriasOf (tx : List Row) : List String :=
  (tx.map (fun r => r.categoria)).dedup

/-- Distinct type strings observed in the transaction table (the pivot
columns). -/
def tiposOf (tx : List Row) : List String :=
  (tx.map (fun r => r.tipo)).dedup

/-- One pivot cell: summed amount of the rows of category `c` and type
`t`; `fill_value=0` makes the empty combination 0, which is the sum of
the empty list. -/
def pivotCell (tx : List Row) (c t : String) : ℚ :=
  ((tx.filter (fun r => decide (r.categoria = c ∧ r.tipo = t))).map
    (fun r => r.monto)).sum

/-- Model of `pd.pivot_table(df, values="monto", index="categoria",
columns="tipo", aggfunc="sum", fill_value=0)` (src/app.py lines
236-243): one row per observed category, one labelled cell per observed
type. In `main` it is only rendered for a non-empty table. -/
def category_type_pivot (tx : List Row) : List (String × List (String × ℚ)) :=
  (categoriasOf tx).map (fun c =>
    (c, (tiposOf tx).map (fun t => (t, pivotCell tx c t))))

/-- A stored table, as rows of cells. -/
def Table : Type := List (List String)

/-- The SQLite database file: contents of each table by name. -/
def Store : Type := String → Table

/-- Model of `guardar_tabla_df` (src/app.py lines 55-62):
`df.to_sql(tabla, conn, if_exists="replace", index=False)` drops
whatever the table held and writes the DataFrame wholesale. -/
def guardar_tabla_df (df : Table) (tabla : String) (s : Store) : Store :=
  fun t => if t = tabla then df else s t

/-- Model of `leer_tabla_df` (src/app.py lines 48-53):
`pd.read_sql("SELECT * FROM {tabla}", conn)` returns the stored rows. -/
def leer_tabla_df (tabla : String) (s : Store) : Table := s tabla

/-- Concrete table: two transactions three calendar weeks apart (days 3
and 17 are both Sundays), leaving the week of day 10 without any
transaction. -/
def txGap : List Row :=
  [{ fecha := .dt (some 3), categoria := "Comida Casa", monto := 5, tipo := "tarjeta" },
   { fecha := .dt (some 17), categoria := "Renta", monto := 7, tipo := "otro" }]

/-- Concrete row whose date is the missing marker (what an unparseable
date cell coerces to). -/
def rowNoParse : Row :=
  { fecha := .dt none, categoria := "Renta", monto := 2000, tipo := "otro" }

/-- Concrete table: one non-empty row whose date is the missing marker. -/
def txNoParse : List Row := [rowNoParse]

/-- Concrete table: one row whose `fecha` cell is still raw text. -/
def txStr : List Row :=
  [{ fecha := .str "2025-03-03", categoria := "Renta", monto := 2000, tipo := "tarjeta" }]

/-- Concrete table: a single parseable transaction on day 3 (a Sunday). -/
def txSimple : List Row :=
  [{ fecha := .dt (some 3), categoria := "Comida Casa", monto := 50, tipo := "tarjeta" }]

/-- Concrete budget table with the single category Renta. -/
def budgetRenta : List BudgetRow :=
  [{ categoria := "Renta", presupuesto_asignado := 2000 }]

theorem map_ext {α β : Type} (f g : α → β) :
    ∀ l : List α, (∀ x ∈ l, f x = g x) → l.map f = l.map g := by
  intro l
  induction l with
  | nil => intro _; rfl
  | cons a l ih =>
    intro h
    simp only [List.map_cons]
    rw [h a (by simp), ih (fun x hx => h x (by simp [hx]))]

theorem filter_ext {α : Type} (p q : α → Bool) :
    ∀ l : List α, (∀ x ∈ l, p x = q x) → l.filter p = l.filter q := by
  intro l
  induction l with
  | nil => intro _; rfl
  | cons a l ih =>
    intro h
    simp only [List.filter_cons]
    rw [h a (by simp), ih (fun x hx => h x (by simp [hx]))]

theorem filter_nil_of {α : Type} (p : α → Bool) :
    ∀ l : List α, (∀ x ∈ l, p x = false) → l.filter p = [] := by
  intro l
  induction l with
  | nil => intro _; rfl
  | cons a l ih =>
    intro h
    simp only [List.filter_cons, h a (by simp)]
    exact ih (fun x hx => h x (by simp [hx]))

theorem filter_all_of {α : Type} (p : α → Bool) :
    ∀ l : List α, (∀ x ∈ l, p x = true) → l.filter p = l := by
  intro l
  induction l with
  | nil => intro _; rfl
  | cons a l ih =>
    intro h
    simp only [List.filter_cons, h a (by simp)]
    rw [ih (fun x hx => h x (by simp [hx]))]
    simp

theorem sum_map_zero {α : Type} :
    ∀ l : List α, (l.map (fun _ => (0 : ℚ))).sum = 0 := by
  intro l
  induction l with
  | nil => rfl
  | cons a l ih => simp [ih]

theorem sum_map_add {α : Type} (g h : α → ℚ) :
    ∀ l : List α,
      (l.map (fun x => g x + h x)).sum = (l.map g).sum + (l.map h).sum := by
  intro l
  induction l with
  | nil => simp
  | cons a l ih => simp [ih]; ring

theorem minL_le (l : List Int) : ∀ (x : Int), ∀ y ∈ x :: l, minL x l ≤ y := by
  induction l with
  | nil =>
    intro x y hy
    simp at hy
    simp [minL, hy]
  | cons a l ih =>
    intro x y hy
    have hfold : minL x (a :: l) = minL (min x a) l := rfl
    rw [hfold]
    rcases List.mem_cons.mp hy with h1 | h2
    · have := ih (min x a) (min x a) (by simp)
      calc minL (min x a) l ≤ min x a := this
        _ ≤ y := by rw [h1]; exact min_le_left _ _
    · rcases List.mem_cons.mp h2 with h3 | h4
      · have := ih (min x a) (min x a) (by simp)
        calc minL (min x a) l ≤ min x a := this
          _ ≤ y := by rw [h3]; exact min_le_right _ _
      · exact ih (min x a) y (by simp [h4])

theorem minL_mem (l : List Int) : ∀ (x : Int), minL x l ∈ x :: l := by
  induction l with
  | nil => intro x; simp [minL]
  | cons a l ih =>
    intro x
    have hfold : minL x (a :: l) = minL (min x a) l := rfl
    rw [hfold]
    rcases List.mem_cons.mp (ih (min x a)) with h1 | h2
    · rcases min_choice x a with hm | hm
      · rw [h1, hm]; simp
      · rw [h1, hm]; simp
    · simp [List.mem_cons.mpr (Or.inr h2)]

theorem le_maxL (l : List Int) : ∀ (x : Int), ∀ y ∈ x :: l, y ≤ maxL x l := by
  induction l with
  | nil =>
    intro x y hy
    simp at hy
    simp [maxL, hy]
  | cons a l ih =>
    intro x y hy
    have hfold : maxL x (a :: l) = maxL (max x a) l := rfl
    rw [hfold]
    rcases List.mem_cons.mp hy with h1 | h2
    · have := ih (max x a) (max x a) (by simp)
      calc y ≤ max x a := by rw [h1]; exact le_max_left _ _
        _ ≤ maxL (max x a) l := this
    · rcases List.mem_cons.mp h2 with h3 | h4
      · have := ih (max x a) (max x a) (by simp)
        calc y ≤ max x a := by rw [h3]; exact le_max_right _ _
          _ ≤ maxL (max x a) l := this
      · exact ih (max x a) y (by simp [h4])

theorem weekEnd_emod (d : Int) : weekEnd d % 7 = 3 := by
  unfold weekEnd
  omega

theorem parsedWeeks_emod {tx : List Row} {w : Int} (h : w ∈ parsedWeeks tx) :
    w % 7 = 3 := by
  obtain ⟨r, hr, hk⟩ := List.mem_filterMap.mp h
  unfold weekKey at hk
  obtain ⟨d, _, hd⟩ := Option.map_eq_some'.mp hk
  rw [← hd]
  exact weekEnd_emod d

theorem weeklyTotals_nil {tx : List Row} (h : parsedWeeks tx = []) :
    weeklyTotals tx = [] := by
  unfold weeklyTotals
  rw [h]

theorem weeklyTotals_cons {tx : List Row} {w : Int} {ws : List Int}
    (h : parsedWeeks tx = w :: ws) :
    weeklyTotals tx
      = (binList (minL w ws) (binCount (minL w ws) (maxL w ws))).map
          (fun b => (b, bucketSum tx b)) := by
  unfold weeklyTotals
  rw [h]

theorem binList_nodup (lo : Int) (k : Nat) : (binList lo k).Nodup := by
  unfold binList
  refine List.Nodup.map ?_ (List.nodup_range k)
  intro i j hij
  have h2 : lo + 7 * (i : Int) = lo + 7 * (j : Int) := hij
  omega

theorem binList_length (lo : Int) (k : Nat) : (binList lo k).length = k := by
  simp [binList]

theorem binList_get (lo : Int) (k i : Nat) (h : i < (binList lo k).length) :
    (binList lo k).get ⟨i, h⟩ = lo + 7 * (i : Int) := by
  simp [binList]

theorem mem_binList {lo hi v : Int} (hlo : lo % 7 = 3)
    (hv : v % 7 = 3) (h1 : lo ≤ v) (h2 : v ≤ hi) :
    v ∈ binList lo (binCount lo hi) := by
  unfold binList binCount
  refine List.mem_map.mpr ⟨(v - lo).toNat / 7, List.mem_range.mpr (by omega), by omega⟩

theorem weeklyTotals_map_fst {tx : List Row} {w : Int} {ws : List Int}
    (h : parsedWeeks tx = w :: ws) :
    (weeklyTotals tx).map Prod.fst
      = binList (minL w ws) (binCount (minL w ws) (maxL w ws)) := by
  rw [weeklyTotals_cons h, List.map_map]
  have hc : (Prod.fst ∘ fun b : Int => (b, bucketSum tx b)) = (fun b : Int => b) := rfl
  rw [hc]
  simp

theorem mem_weeklyTotals_fst {tx : List Row} {v : Int}
    (hv : v ∈ parsedWeeks tx) :
    v ∈ (weeklyTotals tx).map Prod.fst := by
  cases h : parsedWeeks tx with
  | nil => rw [h] at hv; cases hv
  | cons w ws =>
    rw [weeklyTotals_map_fst h]
    have hv2 : v ∈ w :: ws := by rw [← h]; exact hv
    have hlo : minL w ws ∈ parsedWeeks tx := by rw [h]; exact minL_mem ws w
    exact mem_binList (parsedWeeks_emod hlo) (parsedWeeks_emod hv)
      (minL_le ws w v hv2) (le_maxL ws w v hv2)

theorem weekKey_mem_binList {tx : List Row} {w : Int} {ws : List Int}
    (h : parsedWeeks tx = w :: ws) {r : Row} {d : Int} (hr : r ∈ tx)
    (hv : fechaVal r.fecha = some d) :
    weekEnd d ∈ binList (minL w ws) (binCount (minL w ws) (maxL w ws)) := by
  have hpw : weekEnd d ∈ parsedWeeks tx :=
    List.mem_filterMap.mpr ⟨r, hr, by unfold weekKey; rw [hv]; rfl⟩
  have hv2 : weekEnd d ∈ w :: ws := by rw [← h]; exact hpw
  have hlo : minL w ws ∈ parsedWeeks tx := by rw [h]; exact minL_mem ws w
  exact mem_binList (parsedWeeks_emod hlo) (parsedWeeks_emod hpw)
    (minL_le ws w _ hv2) (le_maxL ws w _ hv2)

theorem fechaVal_coerce (f : Fecha) : fechaVal (coerceFecha f) = fechaVal f := rfl

theorem weekKey_coerce (r : Row) : weekKey (coerceRow r) = weekKey r := rfl

theorem parsedWeeks_coerce (tx : List Row) :
    parsedWeeks (tx.map coerceRow) = parsedWeeks tx := by
  unfold parsedWeeks
  rw [List.filterMap_map]
  have hc : weekKey ∘ coerceRow = weekKey := funext (fun r => weekKey_coerce r)
  rw [hc]

theorem bucketSum_coerce (w : Int) :
    ∀ tx : List Row, bucketSum (tx.map coerceRow) w = bucketSum tx w := by
  intro tx
  induction tx with
  | nil => rfl
  | cons r tx ih =>
    unfold bucketSum at ih ⊢
    rw [List.map_cons, List.filter_cons, List.filter_cons, weekKey_coerce]
    by_cases h : weekKey r = some w
    · rw [if_pos (by simp [h]), if_pos (by simp [h])]
      simp only [List.map_cons, List.sum_cons]
      rw [ih]
      have hm : (coerceRow r).monto = r.monto := rfl
      rw [hm]
    · rw [if_neg (by simp [h]), if_neg (by simp [h])]
      exact ih

theorem weeklyTotals_coerce (tx : List Row) :
    weeklyTotals (tx.map coerceRow) = weeklyTotals tx := by
  cases h : parsedWeeks tx with
  | nil =>
    rw [weeklyTotals_nil h, weeklyTotals_nil (by rw [parsedWeeks_coerce, h])]
  | cons w ws =>
    rw [weeklyTotals_cons (show parsedWeeks (tx.map coerceRow) = w :: ws by
          rw [parsedWeeks_coerce, h]),
        weeklyTotals_cons h]
    exact map_ext _ _ _ (fun b _ => by rw [bucketSum_coerce])

theorem isEmpty_false_of_ne_nil {α : Type} {l : List α} (h : l ≠ []) :
    l.isEmpty = false := by
  cases l with
  | nil => exact absurd rfl h
  | cons a l => rfl

theorem forecast_eq {tx : List Row} (h : tx ≠ []) (today : Int) (n : Int) :
    forecast_semanal_naive today tx n
      = (tx.map coerceRow,
          (List.range n.toNat).map (fun (i : Nat) =>
            (((lastBoundary ((weeklyTotals tx).map Prod.fst)).getD today)
                + 7 * ((i : Int) + 1),
              meanOpt ((weeklyTotals tx).map Prod.snd)))) := by
  unfold forecast_semanal_naive
  rw [isEmpty_false_of_ne_nil h]
  simp only [Bool.false_eq_true, if_false, weeklyTotals_coerce]

theorem sum_ite_mem {κ : Type} [DecidableEq κ] (k : Option κ) (q : ℚ) :
    ∀ ws : List κ, ws.Nodup →
      (ws.map (fun w => if k = some w then q else 0)).sum
        = if (∃ w ∈ ws, k = some w) then q else 0 := by
  intro ws
  induction ws with
  | nil => intro _; simp
  | cons w ws ih =>
    intro hnd
    have hw : w ∉ ws := (List.nodup_cons.mp hnd).1
    have hnd2 : ws.Nodup := (List.nodup_cons.mp hnd).2
    simp only [List.map_cons, List.sum_cons]
    by_cases h : k = some w
    · have hrest : ∀ w2 ∈ ws, ¬ k = some w2 := by
        intro w2 hw2 hk2
        rw [h] at hk2
        exact hw (by rw [Option.some.injEq] at hk2; rw [hk2]; exact hw2)
      rw [ih hnd2, if_pos h, if_neg, if_pos]
      · ring
      · exact ⟨w, by simp, h⟩
      · rintro ⟨w2, hw2, hk2⟩
        exact hrest w2 hw2 hk2
    · rw [ih hnd2, if_neg h]
      by_cases h2 : ∃ w2 ∈ ws, k = some w2
      · rw [if_pos h2, if_pos]
        · ring
        · obtain ⟨w2, hw2, hk2⟩ := h2
          exact ⟨w2, by simp [hw2], hk2⟩
      · rw [if_neg h2, if_neg]
        · ring
        · rintro ⟨w2, hw2, hk2⟩
          rcases List.mem_cons.mp hw2 with h3 | h3
          · exact h (by rw [h3] at hk2; exact hk2)
          · exact h2 ⟨w2, h3, hk2⟩

theorem sum_buckets {κ : Type} [DecidableEq κ] (key : Row → Option κ)
    (f : Row → ℚ) (ws : List κ) (hnd : ws.Nodup) :
    ∀ tx : List Row,
      (ws.map (fun w =>
        ((tx.filter (fun r => decide (key r = some w))).map f).sum)).sum
      = ((tx.filter (fun r => decide (∃ w ∈ ws, key r = some w))).map f).sum := by
  intro tx
  induction tx with
  | nil =>
    simp only [List.filter_nil, List.map_nil, List.sum_nil]
    exact sum_map_zero ws
  | cons r tx ih =>
    have hsplit : ∀ w : κ,
        (((r :: tx).filter (fun r2 => decide (key r2 = some w))).map f).sum
          = (if key r = some w then f r else 0)
            + ((tx.filter (fun r2 => decide (key r2 = some w))).map f).sum := by
      intro w
      rw [List.filter_cons]
      by_cases h : key r = some w
      · simp [h]
      · simp [h]
    calc (ws.map (fun w =>
            (((r :: tx).filter (fun r2 => decide (key r2 = some w))).map f).sum)).sum
        = (ws.map (fun w => (if key r = some w then f r else 0)
            + ((tx.filter (fun r2 => decide (key r2 = some w))).map f).sum)).sum := by
          exact congrArg List.sum (map_ext _ _ ws (fun w _ => hsplit w))
      _ = (ws.map (fun w => if key r = some w then f r else 0)).sum
            + (ws.map (fun w =>
                ((tx.filter (fun r2 => decide (key r2 = some w))).map f).sum)).sum := by
          exact sum_map_add _ _ ws
      _ = (if (∃ w ∈ ws, key r = some w) then f r else 0)
            + ((tx.filter (fun r2 => decide (∃ w ∈ ws, key r2 = some w))).map f).sum := by
          rw [sum_ite_mem _ _ ws hnd, ih]
      _ = (((r :: tx).filter
            (fun r2 => decide (∃ w ∈ ws, key r2 = some w))).map f).sum := by
          rw [List.filter_cons]
          by_cases h : ∃ w ∈ ws, key r = some w
          · simp [h]
          · simp [h]

theorem maxL_mem (l : List Int) : ∀ (x : Int), maxL x l ∈ x :: l := by
  induction l with
  | nil => intro x; simp [maxL]
  | cons a l ih =>
    intro x
    have hfold : maxL x (a :: l) = maxL (max x a) l := rfl
    rw [hfold]
    rcases List.mem_cons.mp (ih (max x a)) with h1 | h2
    · rcases max_choice x a with hm | hm
      · rw [h1, hm]; simp
      · rw [h1, hm]; simp
    · simp [List.mem_cons.mpr (Or.inr h2)]

/-- C5: saving a table with `guardar_tabla_df` and loading the same name
with `leer_tabla_df` returns exactly the saved table — same rows, same
values — whatever the store held under that name before (the save is a
full destructive replace). -/
theorem C5_save_load_roundtrip (s : Store) (df : Table) (tabla : String) :
    leer_tabla_df tabla (guardar_tabla_df df tabla s) = df := by
  unfold leer_tabla_df guardar_tabla_df
  simp

/-- C10: for every non-empty transaction table and every horizon
`n ≤ 0`, `forecast_semanal_naive` returns a projection with zero rows
and raises nothing (the model is a total function), even though the spec
requires a positive horizon and an output of length `horizon_weeks`. -/
theorem C10_nonpositive_horizon (today : Int) (tx : List Row) (n : Int)
    (htx : tx ≠ []) (hn : n ≤ 0) :
    (forecast_semanal_naive today tx n).snd = [] := by
  rw [forecast_eq htx]
  have h0 : n.toNat = 0 := by omega
  rw [h0]
  rfl

/-- Witness for C10 at a concrete table and horizon `-3`. -/
theorem C10_witness : (forecast_semanal_naive 0 txSimple (-3)).snd = [] :=
  C10_nonpositive_horizon 0 txSimple (-3) (by decide) (by norm_num)

/-- C8 counterexample: calling the forecaster on a table whose `fecha`
cell is raw text replaces that cell with its coerced datetime value in
place, so the argument table is not left unchanged by the call. -/
theorem C8_purity_counterexample :
    (forecast_semanal_naive 0 txStr 4).fst ≠ txStr := by
  rw [forecast_eq (show txStr ≠ [] by simp [txStr])]
  intro h
  have h1 : txStr.map coerceRow = txStr := h
  rw [txStr] at h1
  simp only [List.map_cons, List.map_nil, List.cons.injEq, and_true] at h1
  have h3 := congrArg Row.fecha h1
  simp [coerceRow, coerceFecha] at h3

/-- C8 (amended): the forecaster mutates its argument only by coercing
the `fecha` column in place — the post-call table is exactly the input
with every `fecha` cell coerced to its parsed datetime value, and the
categoria, monto and tipo columns are unchanged. Apart from this
in-place date coercion the projection is a pure function of the input. -/
theorem C8_forecast_mutation_amended (today : Int) (tx : List Row) (n : Int) :
    (forecast_semanal_naive today tx n).fst = tx.map coerceRow ∧
      (forecast_semanal_naive today tx n).fst.map
          (fun r => (r.categoria, r.monto, r.tipo))
        = tx.map (fun r => (r.categoria, r.monto, r.tipo)) := by
  cases tx with
  | nil => exact ⟨rfl, rfl⟩
  | cons r tx2 =>
    rw [forecast_eq (show r :: tx2 ≠ [] by simp)]
    refine ⟨rfl, ?_⟩
    show ((r :: tx2).map coerceRow).map _ = _
    rw [List.map_map]
    exact map_ext _ _ _ (fun x _ => rfl)

/-- C4: the weekly-totals sequence sums to exactly the total amount of
the transactions whose date value parses to a valid date; rows with
unparseable dates contribute nothing. -/
theorem C4_weekly_sum_conservation (tx : List Row) :
    ((weeklyTotals tx).map Prod.snd).sum
      = ((tx.filter (fun r => (fechaVal r.fecha).isSome)).map
          (fun r => r.monto)).sum := by
  cases h : parsedWeeks tx with
  | nil =>
    rw [weeklyTotals_nil h]
    have hnone : ∀ r ∈ tx, (fechaVal r.fecha).isSome = false := by
      intro r hr
      cases hv : fechaVal r.fecha with
      | none => rfl
      | some d =>
        exfalso
        have hpw : weekEnd d ∈ parsedWeeks tx :=
          List.mem_filterMap.mpr ⟨r, hr, by unfold weekKey; rw [hv]; rfl⟩
        rw [h] at hpw
        cases hpw
    rw [filter_nil_of _ tx hnone]
    rfl
  | cons w ws =>
    rw [weeklyTotals_cons h, List.map_map]
    have hc : ((fun p : Int × ℚ => p.snd) ∘ fun b => (b, bucketSum tx b))
        = bucketSum tx := rfl
    rw [show (Prod.snd ∘ fun b : Int => (b, bucketSum tx b)) = bucketSum tx
        from rfl]
    have hsb := sum_buckets weekKey (fun r => r.monto)
      (binList (minL w ws) (binCount (minL w ws) (maxL w ws)))
      (binList_nodup _ _) tx
    rw [show (fun w2 => ((tx.filter
          (fun r => decide (weekKey r = some w2))).map (fun r => r.monto)).sum)
        = bucketSum tx from rfl] at hsb
    rw [hsb]
    have hpt : ∀ r ∈ tx,
        decide (∃ w2 ∈ binList (minL w ws) (binCount (minL w ws) (maxL w ws)),
            weekKey r = some w2)
          = (fechaVal r.fecha).isSome := by
      intro r hr
      cases hv : fechaVal r.fecha with
      | none =>
        simp [weekKey, hv]
      | some d =>
        simp only [weekKey, hv, Option.map_some', Option.isSome_some]
        apply decide_eq_true
        exact ⟨weekEnd d, weekKey_mem_binList h hr hv, rfl⟩
    rw [filter_ext _ _ tx hpt]

/-- C7: a transaction row whose date value does not parse never makes an
aggregation raise (all aggregations are total functions of the table):
the row is excluded from the weekly time-based grouping — prepending it
leaves every weekly total unchanged — yet it still contributes its
amount to the per-category totals used in the budget comparison. -/
theorem C7_unparseable_date_handling (r : Row) (tx : List Row)
    (h : fechaVal r.fecha = none) :
    weeklyTotals (r :: tx) = weeklyTotals tx ∧
      ∀ c : String,
        actualPorCategoria (r :: tx) c
          = actualPorCategoria tx c
            + (if r.categoria = c then r.monto else 0) := by
  have hk : weekKey r = none := by unfold weekKey; rw [h]; rfl
  constructor
  · have hpw : parsedWeeks (r :: tx) = parsedWeeks tx := by
      unfold parsedWeeks
      simp only [List.filterMap_cons, hk]
    have hbs : ∀ b, bucketSum (r :: tx) b = bucketSum tx b := by
      intro b
      unfold bucketSum
      rw [List.filter_cons, if_neg (by simp [hk])]
    cases hp : parsedWeeks tx with
    | nil =>
      rw [weeklyTotals_nil (show parsedWeeks (r :: tx) = [] by rw [hpw, hp]),
          weeklyTotals_nil hp]
    | cons w ws =>
      rw [weeklyTotals_cons (show parsedWeeks (r :: tx) = w :: ws by
            rw [hpw, hp]),
          weeklyTotals_cons hp]
      exact map_ext _ _ _ (fun b _ => by rw [hbs])
  · intro c
    unfold actualPorCategoria
    rw [List.filter_cons]
    by_cases hc : r.categoria = c
    · rw [if_pos (by simp [hc]), if_pos hc]
      simp only [List.map_cons, List.sum_cons]
      ring
    · rw [if_neg (by simp [hc]), if_neg hc]
      ring

/-- Witness for C7 at the concrete missing-date row and a one-row table. -/
theorem C7_witness :
    weeklyTotals (rowNoParse :: txSimple) = weeklyTotals txSimple ∧
      actualPorCategoria (rowNoParse :: txSimple) "Renta"
        = actualPorCategoria txSimple "Renta"
          + (if rowNoParse.categoria = "Renta" then rowNoParse.monto else 0) := by
  have h := C7_unparseable_date_handling rowNoParse txSimple rfl
  exact ⟨h.1, h.2 "Renta"⟩

/-- C9 counterexample: a non-empty transaction table whose only date is
the missing marker has no observed week boundary — the weekly series is
empty and `Series.max()` yields the null marker — yet the projection is
produced, anchored at the defensively substituted "today" (here 100,
first projected week 107): the fallback is reachable despite the
emptiness guard of step 1, so it is not unreachable for every non-empty
table. -/
theorem C9_fallback_counterexample :
    txNoParse ≠ [] ∧
      lastBoundary ((weeklyTotals txNoParse).map Prod.fst) = none ∧
      (forecast_semanal_naive 100 txNoParse 1).snd = [(107, none)] := by
  have hp : parsedWeeks txNoParse = [] := rfl
  refine ⟨by simp [txNoParse], ?_, ?_⟩
  · rw [weeklyTotals_nil hp]
    rfl
  · rw [forecast_eq (show txNoParse ≠ [] by simp [txNoParse])]
    rw [weeklyTotals_nil hp]
    decide

/-- C9 (amended): for every transaction table containing at least one
row whose date parses, the "today" fallback of the forecaster is
unreachable: a most recent observed week boundary exists, and the
projection does not depend on "today" at all — it is anchored at that
observed boundary. (The emptiness guard of step 1 alone does not ensure
this; one parseable date does.) -/
theorem C9_fallback_amended (tx : List Row)
    (h : ∃ r ∈ tx, (fechaVal r.fecha).isSome) :
    (∃ b : Int, lastBoundary ((weeklyTotals tx).map Prod.fst) = some b) ∧
      ∀ t1 t2 n : Int,
        (forecast_semanal_naive t1 tx n).snd
          = (forecast_semanal_naive t2 tx n).snd := by
  obtain ⟨r, hr, hs⟩ := h
  obtain ⟨d, hv⟩ := Option.isSome_iff_exists.mp hs
  have htx : tx ≠ [] := by
    intro he
    rw [he] at hr
    cases hr
  have hpw : weekEnd d ∈ parsedWeeks tx :=
    List.mem_filterMap.mpr ⟨r, hr, by unfold weekKey; rw [hv]; rfl⟩
  cases hp : parsedWeeks tx with
  | nil =>
    rw [hp] at hpw
    cases hpw
  | cons w ws =>
    have hfst := weeklyTotals_map_fst hp
    have hlenpos : 0 < (binList (minL w ws)
        (binCount (minL w ws) (maxL w ws))).length := by
      rw [binList_length]
      unfold binCount
      omega
    obtain ⟨x, xs, hxs⟩ :=
      List.exists_cons_of_ne_nil (List.length_pos.mp hlenpos)
    have hlast : lastBoundary ((weeklyTotals tx).map Prod.fst)
        = some (maxL x xs) := by
      rw [hfst, hxs]
      rfl
    refine ⟨⟨maxL x xs, hlast⟩, ?_⟩
    intro t1 t2 n
    rw [forecast_eq htx t1 n, forecast_eq htx t2 n]
    rw [hlast]
    rfl

/-- Witness for C9 (amended) at a concrete one-row table with a parsed
date: the boundary exists and the projection ignores "today". -/
theorem C9_witness :
    (∃ b : Int, lastBoundary ((weeklyTotals txSimple).map Prod.fst) = some b)
      ∧ (forecast_semanal_naive 100 txSimple 2).snd
          = (forecast_semanal_naive 200 txSimple 2).snd := by
  have h := C9_fallback_amended txSimple
    ⟨{ fecha := .dt (some 3), categoria := "Comida Casa", monto := 50,
        tipo := "tarjeta" }, by decide, by decide⟩
  exact ⟨h.1, h.2 100 200 2⟩

/-- C2 counterexample: with transactions on days 3 and 17 only (two
Sundays, three weekly bins apart), the weekly-totals sequence contains
the intermediate week 10 with total 0 although no transaction falls into
it — calendar weeks with zero transactions between the first and last
observed week are zero-filled by the `Grouper` binning, not absent as
the claim states. -/
theorem C2_weekly_totals_counterexample :
    weeklyTotals txGap = [(3, 5), (10, 0), (17, 7)] ∧
      ∀ r ∈ txGap, weekKey r ≠ some 10 := by
  constructor
  · have hp : parsedWeeks txGap = [3, 17] := by decide
    rw [weeklyTotals_cons hp]
    have hmm : minL 3 [17] = 3 ∧ maxL 3 [17] = 17 := by decide
    rw [hmm.1, hmm.2]
    have hbl : binList 3 (binCount 3 17) = [3, 10, 17] := by decide
    rw [hbl]
    have hb3 : txGap.filter (fun r => decide (weekKey r = some 3))
        = [{ fecha := .dt (some 3), categoria := "Comida Casa", monto := 5,
              tipo := "tarjeta" }] := by decide
    have hb10 : txGap.filter (fun r => decide (weekKey r = some 10)) = [] := by
      decide
    have hb17 : txGap.filter (fun r => decide (weekKey r = some 17))
        = [{ fecha := .dt (some 17), categoria := "Renta", monto := 7,
              tipo := "otro" }] := by decide
    simp only [List.map_cons, List.map_nil]
    unfold bucketSum
    rw [hb3, hb10, hb17]
    simp
  · decide

/-- C2 (amended): the weekly-totals sequence is empty exactly when no
transaction date parses (in particular for empty input); its week labels
advance by exactly one week from each entry to the next, so every
calendar week between the first and the last observed week is present —
zero-transaction gap weeks included, carrying total 0; each entry's
total is the summed amount of the transactions falling into that week
(so the sequence is strictly ascending by week-end date); and the week
of every parseable transaction appears. -/
theorem C2_weekly_totals_amended (tx : List Row) :
    (tx = [] → weeklyTotals tx = []) ∧
      (weeklyTotals tx = [] ↔ parsedWeeks tx = []) ∧
      (∀ i : Nat, ∀ h1 : i < (weeklyTotals tx).length,
        ∀ h2 : i + 1 < (weeklyTotals tx).length,
        ((weeklyTotals tx).get ⟨i + 1, h2⟩).1
          = ((weeklyTotals tx).get ⟨i, h1⟩).1 + 7) ∧
      (∀ p ∈ weeklyTotals tx, p.2 = bucketSum tx p.1) ∧
      (∀ r ∈ tx, ∀ w : Int, weekKey r = some w →
        w ∈ (weeklyTotals tx).map Prod.fst) := by
  refine ⟨?_, ⟨?_, fun hp => weeklyTotals_nil hp⟩, ?_, ?_, ?_⟩
  · intro he
    rw [he]
    rfl
  · intro hw
    cases hp : parsedWeeks tx with
    | nil => rfl
    | cons w ws =>
      exfalso
      rw [weeklyTotals_cons hp] at hw
      have := congrArg List.length hw
      rw [List.length_map, binList_length] at this
      unfold binCount at this
      simp at this
  · intro i h1 h2
    cases hp : parsedWeeks tx with
    | nil =>
      exfalso
      rw [weeklyTotals_nil hp] at h1
      cases h1
    | cons w ws =>
      have he := weeklyTotals_cons hp
      have hl1 : i < (binList (minL w ws)
          (binCount (minL w ws) (maxL w ws))).length := by
        rw [← List.length_map _ (fun b => (b, bucketSum tx b)), ← he]
        exact h1
      have hl2 : i + 1 < (binList (minL w ws)
          (binCount (minL w ws) (maxL w ws))).length := by
        rw [← List.length_map _ (fun b => (b, bucketSum tx b)), ← he]
        exact h2
      have hg1 : ((weeklyTotals tx).get ⟨i, h1⟩).1
          = minL w ws + 7 * (i : Int) := by
        rw [← binList_get (minL w ws) (binCount (minL w ws) (maxL w ws)) i hl1]
        rw [List.get_of_eq he]
        simp [List.get_eq_getElem, List.getElem_map]
      have hg2 : ((weeklyTotals tx).get ⟨i + 1, h2⟩).1
          = minL w ws + 7 * ((i : Int) + 1) := by
        rw [show minL w ws + 7 * ((i : Int) + 1)
            = minL w ws + 7 * (((i + 1 : Nat) : Int)) by push_cast; ring]
        rw [← binList_get (minL w ws) (binCount (minL w ws) (maxL w ws))
            (i + 1) hl2]
        rw [List.get_of_eq he]
        simp [List.get_eq_getElem, List.getElem_map]
      rw [hg1, hg2]
      ring
  · intro p hp2
    cases hp : parsedWeeks tx with
    | nil =>
      rw [weeklyTotals_nil hp] at hp2
      cases hp2
    | cons w ws =>
      rw [weeklyTotals_cons hp] at hp2
      obtain ⟨b, _, hb⟩ := List.mem_map.mp hp2
      rw [← hb]
  · intro r hr w hk
    have hvw : w ∈ parsedWeeks tx := List.mem_filterMap.mpr ⟨r, hr, hk⟩
    exact mem_weeklyTotals_fst hvw

/-- Witness for C2 (amended): on the concrete gap table the observed
week 3 appears among the weekly labels. -/
theorem C2_witness : (3 : Int) ∈ (weeklyTotals txGap).map Prod.fst := by
  have h := (C2_weekly_totals_amended txGap).2.2.2.2
  exact h ⟨.dt (some 3), "Comida Casa", 5, "tarjeta"⟩ (by decide) 3 (by decide)

/-- C1 counterexample: the claim asserts for every transaction table and
horizon that the first projected week is one week after the most recent
observed week boundary; the non-empty table whose only date is
unparseable has no observed week boundary at all (the weekly series is
empty and its `max()` is the null marker), yet the projection is
non-empty — it is anchored at "today" instead — so the universally
quantified statement is false. -/
theorem C1_project_weekly_counterexample :
    ¬ (∀ (today : Int) (tx : List Row) (n : Int), tx ≠ [] → 0 < n →
        ∃ b : Int,
          lastBoundary ((weeklyTotals tx).map Prod.fst) = some b ∧
            ((forecast_semanal_naive today tx n).snd.map Prod.fst).head?
              = some (b + 7)) := by
  intro hcl
  obtain ⟨b, hb, _⟩ := hcl 0 txNoParse 1 (by simp [txNoParse]) (by norm_num)
  rw [weeklyTotals_nil (show parsedWeeks txNoParse = [] from rfl)] at hb
  simp [lastBoundary] at hb

/-- C1 (amended): with a positive horizon the forecaster returns the
empty projection for the empty table; for a non-empty table it returns
exactly `n` entries, every entry carrying the identical projected
amount, namely the arithmetic mean of the weekly totals (the undefined
marker — pandas NaN — when no date parses and the weekly series is
empty), each future week date exactly one week after the previous; the
first is exactly one week after the most recent observed week boundary
whenever such a boundary exists, and one week after "today" otherwise
(the defensive fallback, reached exactly when no date parses). -/
theorem C1_project_weekly_amended (today : Int) (tx : List Row) (n : Int)
    (hn : 0 < n) :
    (tx = [] → (forecast_semanal_naive today tx n).snd = []) ∧
      (tx ≠ [] →
        (((forecast_semanal_naive today tx n).snd.length : Int) = n ∧
          (∀ p ∈ (forecast_semanal_naive today tx n).snd,
            p.2 = meanOpt ((weeklyTotals tx).map Prod.snd)) ∧
          (∀ i : Nat,
            ∀ h1 : i < ((forecast_semanal_naive today tx n).snd).length,
            ∀ h2 : i + 1 < ((forecast_semanal_naive today tx n).snd).length,
            (((forecast_semanal_naive today tx n).snd).get ⟨i + 1, h2⟩).1
              = (((forecast_semanal_naive today tx n).snd).get ⟨i, h1⟩).1
                + 7) ∧
          (∀ h0 : 0 < ((forecast_semanal_naive today tx n).snd).length,
            (∀ b : Int,
              lastBoundary ((weeklyTotals tx).map Prod.fst) = some b →
                (((forecast_semanal_naive today tx n).snd).get ⟨0, h0⟩).1
                  = b + 7) ∧
            (lastBoundary ((weeklyTotals tx).map Prod.fst) = none →
              (((forecast_semanal_naive today tx n).snd).get ⟨0, h0⟩).1
                = today + 7)))) := by
  constructor
  · intro he
    rw [he]
    rfl
  · intro htx
    rw [forecast_eq htx]
    refine ⟨?_, ?_, ?_, ?_⟩
    · simp only [List.length_map, List.length_range]
      omega
    · intro p hp
      obtain ⟨i, _, hi⟩ := List.mem_map.mp hp
      rw [← hi]
    · intro i h1 h2
      simp only [List.get_eq_getElem, List.getElem_map, List.getElem_range]
      push_cast
      ring
    · intro h0
      constructor
      · intro b hb
        simp only [List.get_eq_getElem, List.getElem_map, List.getElem_range]
        rw [hb]
        simp only [Option.getD_some]
        norm_num
      · intro hb
        simp only [List.get_eq_getElem, List.getElem_map, List.getElem_range]
        rw [hb]
        simp only [Option.getD_none]
        norm_num

/-- Witness for C1 (amended) at the concrete one-row table, today 0 and
horizon 2: the projection has exactly 2 entries. -/
theorem C1_witness : ((forecast_semanal_naive 0 txSimple 2).snd.length : Int) = 2 :=
  ((C1_project_weekly_amended 0 txSimple 2 (by norm_num)).2
    (by simp [txSimple])).1

/-- C3 counterexample: the whole budget comparison in `main` sits under
`if not df_gastos_final.empty:`, so with budget row (Renta, 2000) and an
empty transaction table no comparison table is produced at all — not the
single row (Renta, actual 0, difference 2000) the claim asserts for that
very scenario. -/
theorem C3_budget_join_counterexample :
    category_actual_vs_budget [] budgetRenta = none ∧
      ∀ out : List CompRow, category_actual_vs_budget [] budgetRenta ≠ some out := by
  refine ⟨rfl, ?_⟩
  intro out h
  rw [show category_actual_vs_budget [] budgetRenta = none from rfl] at h
  cases h

/-- C3 (amended): for every budget table and every NON-EMPTY transaction
table the comparison exists and has left-join shape: exactly one output
row per budget row, in order, carrying the budget category and assigned
amount, the actual amount as the summed spend of that category (0 when
no transaction matches, so the difference is then the full assigned
amount), and difference = assigned − actual; categories appearing only
in transactions produce no row (the output is indexed by budget rows
alone). For the empty transaction table no comparison is produced at
all — the scenario in the claim does not hold on the code. -/
theorem C3_budget_join_amended (tx : List Row) (budget : List BudgetRow)
    (htx : tx ≠ []) :
    ∃ out : List CompRow,
      category_actual_vs_budget tx budget = some out ∧
        out.length = budget.length ∧
        (∀ i : Nat, ∀ ho : i < out.length, ∀ hb : i < budget.length,
          (out.get ⟨i, ho⟩).categoria = (budget.get ⟨i, hb⟩).categoria ∧
          (out.get ⟨i, ho⟩).presupuesto_asignado
            = (budget.get ⟨i, hb⟩).presupuesto_asignado ∧
          (out.get ⟨i, ho⟩).gasto_actual
            = actualPorCategoria tx (budget.get ⟨i, hb⟩).categoria ∧
          (out.get ⟨i, ho⟩).diferencia
            = (budget.get ⟨i, hb⟩).presupuesto_asignado
              - actualPorCategoria tx (budget.get ⟨i, hb⟩).categoria) ∧
        (∀ i : Nat, ∀ ho : i < out.length, ∀ hb : i < budget.length,
          (∀ r ∈ tx, r.categoria ≠ (budget.get ⟨i, hb⟩).categoria) →
            (out.get ⟨i, ho⟩).gasto_actual = 0 ∧
            (out.get ⟨i, ho⟩).diferencia
              = (budget.get ⟨i, hb⟩).presupuesto_asignado) := by
  have hzero : ∀ c : String, (∀ r ∈ tx, r.categoria ≠ c) →
      actualPorCategoria tx c = 0 := by
    intro c hc
    unfold actualPorCategoria
    rw [filter_nil_of _ tx (fun r hr => decide_eq_false (hc r hr))]
    rfl
  refine ⟨budget.map (fun b =>
    { categoria := b.categoria
      presupuesto_asignado := b.presupuesto_asignado
      gasto_actual := actualPorCategoria tx b.categoria
      diferencia := b.presupuesto_asignado - actualPorCategoria tx b.categoria }),
    ?_, ?_, ?_, ?_⟩
  · unfold category_actual_vs_budget
    rw [isEmpty_false_of_ne_nil htx]
    rfl
  · exact List.length_map _ _
  · intro i ho hb
    simp [List.get_eq_getElem, List.getElem_map]
  · intro i ho hb hnone
    simp only [List.get_eq_getElem] at hnone
    simp only [List.get_eq_getElem, List.getElem_map]
    constructor
    · exact hzero _ hnone
    · rw [hzero _ hnone]
      ring

/-- Witness for C3 (amended): with the one-row transaction table (whose
category is not Renta) and the Renta budget, the comparison exists and
has exactly one row with actual spend 0. -/
theorem C3_witness :
    ∃ out : List CompRow,
      category_actual_vs_budget txSimple budgetRenta = some out ∧
        out.length = 1 := by
  obtain ⟨out, h1, h2, _, _⟩ :=
    C3_budget_join_amended txSimple budgetRenta (by simp [txSimple])
  exact ⟨out, h1, by rw [h2]; rfl⟩

/-- Membership of a row's category among the observed categories. -/
theorem mem_categorias_of_mem {tx : List Row} {r : Row} (hr : r ∈ tx) :
    r.categoria ∈ categoriasOf tx := by
  unfold categoriasOf
  exact List.mem_dedup.mpr (List.mem_map.mpr ⟨r, hr, rfl⟩)

/-- Membership of a row's type among the observed types. -/
theorem mem_tipos_of_mem {tx : List Row} {r : Row} (hr : r ∈ tx) :
    r.tipo ∈ tiposOf tx := by
  unfold tiposOf
  exact List.mem_dedup.mpr (List.mem_map.mpr ⟨r, hr, rfl⟩)

/-- Summing one pivot row across all observed types gives the category
total: every row of the category lands in exactly one type column. -/
theorem pivotRow_sum (tx : List Row) (c : String) :
    ((tiposOf tx).map (fun t => pivotCell tx c t)).sum
      = actualPorCategoria tx c := by
  have hnd : (tiposOf tx).Nodup := List.nodup_dedup _
  have hsb := sum_buckets
    (fun r => if r.categoria = c then some r.tipo else none)
    (fun r => r.monto) (tiposOf tx) hnd tx
  have hL : ∀ t ∈ tiposOf tx,
      ((tx.filter (fun r =>
          decide ((if r.categoria = c then some r.tipo else none) = some t))).map
        (fun r => r.monto)).sum
        = pivotCell tx c t := by
    intro t _
    unfold pivotCell
    have hpt : ∀ r ∈ tx,
        decide ((if r.categoria = c then some r.tipo else none) = some t)
          = decide (r.categoria = c ∧ r.tipo = t) := by
      intro r _
      by_cases hc : r.categoria = c
      · simp [hc]
      · simp [hc]
    rw [filter_ext _ _ tx hpt]
  rw [map_ext _ _ (tiposOf tx) hL] at hsb
  have hpt2 : ∀ r ∈ tx,
      decide (∃ t ∈ tiposOf tx,
          (if r.categoria = c then some r.tipo else none) = some t)
        = decide (r.categoria = c) := by
    intro r hr
    by_cases hc : r.categoria = c
    · rw [decide_eq_true hc]
      exact decide_eq_true ⟨r.tipo, mem_tipos_of_mem hr, by rw [if_pos hc]⟩
    · simp [hc]
  rw [filter_ext _ _ tx hpt2] at hsb
  exact hsb

/-- Summing the per-category totals over the observed categories gives
the grand total of all transaction amounts. -/
theorem categorias_sum (tx : List Row) :
    ((categoriasOf tx).map (fun c => actualPorCategoria tx c)).sum
      = (tx.map (fun r => r.monto)).sum := by
  have hnd : (categoriasOf tx).Nodup := List.nodup_dedup _
  have hsb := sum_buckets (fun r => (some r.categoria : Option String))
    (fun r => r.monto) (categoriasOf tx) hnd tx
  have hL : ∀ c ∈ categoriasOf tx,
      ((tx.filter (fun r =>
          decide ((some r.categoria : Option String) = some c))).map
        (fun r => r.monto)).sum
        = actualPorCategoria tx c := by
    intro c _
    unfold actualPorCategoria
    have hpt : ∀ r ∈ tx,
        decide ((some r.categoria : Option String) = some c)
          = decide (r.categoria = c) := by
      intro r _
      simp
    rw [filter_ext _ _ tx hpt]
  rw [map_ext _ _ (categoriasOf tx) hL] at hsb
  have hall : ∀ r ∈ tx,
      decide (∃ c ∈ categoriasOf tx,
          (some r.categoria : Option String) = some c) = true := by
    intro r hr
    exact decide_eq_true ⟨r.categoria, mem_categorias_of_mem hr, rfl⟩
  rw [filter_all_of _ tx hall] at hsb
  exact hsb

/-- C6: for every non-empty transaction table the pivot has exactly one
row per distinct observed category and, in every row, one labelled cell
per distinct observed type (new type strings would appear as new
columns); every (category, type) combination with no transaction holds
0; and the sum of all cells equals the total transaction amount. -/
theorem C6_pivot_shape_and_sum (tx : List Row) (htx : tx ≠ []) :
    ((category_type_pivot tx).map Prod.fst = categoriasOf tx) ∧
      (categoriasOf tx).Nodup ∧
      (tiposOf tx).Nodup ∧
      (∀ row ∈ category_type_pivot tx, row.2.map Prod.fst = tiposOf tx) ∧
      (∀ c t : String, (∀ r ∈ tx, ¬(r.categoria = c ∧ r.tipo = t)) →
        pivotCell tx c t = 0) ∧
      ((category_type_pivot tx).map (fun row => (row.2.map Prod.snd).sum)).sum
        = (tx.map (fun r => r.monto)).sum := by
  refine ⟨?_, List.nodup_dedup _, List.nodup_dedup _, ?_, ?_, ?_⟩
  · unfold category_type_pivot
    rw [List.map_map]
    have hc : (Prod.fst ∘ fun c =>
        (c, (tiposOf tx).map (fun t => (t, pivotCell tx c t))))
          = (fun c : String => c) := rfl
    rw [hc]
    simp
  · intro row hrow
    obtain ⟨c, _, hcrow⟩ := List.mem_map.mp hrow
    rw [← hcrow]
    rw [List.map_map]
    have hc : (Prod.fst ∘ fun t => (t, pivotCell tx c t))
        = (fun t : String => t) := rfl
    rw [hc]
    simp
  · intro c t hne
    unfold pivotCell
    rw [filter_nil_of _ tx (fun r hr => decide_eq_false (hne r hr))]
    rfl
  · unfold category_type_pivot
    rw [List.map_map]
    have hcomp : ((fun row : String × List (String × ℚ) =>
          (row.2.map Prod.snd).sum) ∘ (fun c =>
            (c, (tiposOf tx).map (fun t => (t, pivotCell tx c t)))))
        = fun c => ((tiposOf tx).map (fun t => pivotCell tx c t)).sum := by
      funext c
      show (((tiposOf tx).map (fun t => (t, pivotCell tx c t))).map
          Prod.snd).sum = _
      rw [List.map_map]
      rfl
    rw [hcomp]
    rw [map_ext _ _ (categoriasOf tx) (fun c _ => pivotRow_sum tx c)]
    exact categorias_sum tx

/-- Witness for C6 at the concrete two-row table with two categories and
two types: the pivot cells sum to the total amount. -/
theorem C6_witness :
    ((category_type_pivot txGap).map
        (fun row => (row.2.map Prod.snd).sum)).sum
      = (txGap.map (fun r => r.monto)).sum :=
  (C6_pivot_shape_and_sum txGap (by simp [txGap])).2.2.2.2.2
